import Mathlib

/-!
Verification of the tensorchat streaming client
(`src/TensorchatStreaming.ts` and the throttled variants of the same class).

The development shallowly embeds the stream engine:

* `processBuffer` embeds the frame extractor
  (`TensorchatStreaming.processBuffer`, src/TensorchatStreaming.ts lines
  19-36): text buffers are `List Char`, the frame delimiter is the two
  character sequence `"\n\n"`, and the extractor returns the list of complete
  frame bodies together with the unterminated leftover suffix.
* `handleEvent` / `processLine` / `runLines` / `runReads` / `streamProcess`
  embed the event-dispatch loop of `TensorchatStreaming.streamProcess`
  (lines 41-177).  JSON encoding/decoding is an external collaborator of the
  engine, so a decoded line is represented by `LineItem`: a line carrying the
  `"data: "` marker whose `JSON.parse` outcome is an `Option StreamEventData`
  (`none` models a parse failure), or any other line, which the loop ignores.
* `throttle` / `fireTimer` embed the coalescing dispatcher of the throttled
  variant of the class, together with an explicit model of the runtime's
  timer table (`setTimeout` / `clearTimeout`).

JavaScript `Map` objects are modelled as association lists in which `set`
prepends a binding (later bindings shadow earlier ones, exactly the
observable lookup behaviour of `Map.set`) and `delete` removes every binding
of the key; `Set` objects are modelled as duplicate-free lists.
-/

/-! ## Frame extractor -/

/-- The wire frame delimiter, a double newline. -/
def delim : List Char := ['\n', '\n']

/-- Embeds `TensorchatStreaming.processBuffer` (src/TensorchatStreaming.ts
lines 19-36): repeatedly locate the leftmost `"\n\n"`, emit the text before
it as a complete frame body, and continue after it; the suffix after the
last delimiter is returned as the new buffer.  The source walks the buffer
with `indexOf('\n\n', startIndex)`; this embedding performs the same leftmost
first scan one character at a time. -/
def processBuffer : List Char → List (List Char) × List Char
  | [] => ([], [])
  | [c] => ([], [c])
  | a :: b :: rest =>
    if a = '\n' ∧ b = '\n' then
      (([] : List Char) :: (processBuffer rest).1, (processBuffer rest).2)
    else
      match processBuffer (b :: rest) with
      | ([], l) => ([], a :: l)
      | (f :: fs, l) => ((a :: f) :: fs, l)

/-- `true` when the text contains the frame delimiter `"\n\n"`. -/
def hasDelim : List Char → Bool
  | [] => false
  | [_] => false
  | a :: b :: rest =>
    if a = '\n' ∧ b = '\n' then true else hasDelim (b :: rest)

/-- Re-serialise a list of frame bodies: each frame followed by the
delimiter. -/
def joinFrames (fs : List (List Char)) : List Char :=
  (fs.map (· ++ delim)).flatten

/-- One accumulate-and-extract step of the read loop: append the newly read
piece to the carried leftover and run the frame extractor, keeping the frames
found so far (src/TensorchatStreaming.ts lines 79-83). -/
def feed (acc : List (List Char) × List Char) (piece : List Char) :
    List (List Char) × List Char :=
  (acc.1 ++ (processBuffer (acc.2 ++ piece)).1, (processBuffer (acc.2 ++ piece)).2)

theorem processBuffer_delim_cons (rest : List Char) :
    processBuffer ('\n' :: '\n' :: rest) =
      ([] :: (processBuffer rest).1, (processBuffer rest).2) := by
  simp [processBuffer]

theorem processBuffer_cons_of_ne {a b : Char} (h : ¬(a = '\n' ∧ b = '\n'))
    (rest : List Char) :
    processBuffer (a :: b :: rest) =
      match processBuffer (b :: rest) with
      | ([], l) => ([], a :: l)
      | (f :: fs, l) => ((a :: f) :: fs, l) := by
  rw [processBuffer, if_neg h]

theorem joinFrames_nil : joinFrames [] = [] := rfl

theorem joinFrames_cons (f : List Char) (fs : List (List Char)) :
    joinFrames (f :: fs) = f ++ delim ++ joinFrames fs := by
  simp [joinFrames, List.append_assoc]

/-- Reconstruction: frames interleaved with delimiters followed by the
leftover give back the input. -/
theorem processBuffer_reconstruct (s : List Char) :
    joinFrames (processBuffer s).1 ++ (processBuffer s).2 = s := by
  induction s using processBuffer.induct with
  | case1 => simp [processBuffer, joinFrames]
  | case2 c => simp [processBuffer, joinFrames]
  | case3 a b rest h ih =>
    obtain ⟨rfl, rfl⟩ := h
    rw [processBuffer_delim_cons, joinFrames_cons]
    simpa [delim] using ih
  | case4 a b rest h l heq ih =>
    rw [heq] at ih
    rw [processBuffer_cons_of_ne h, heq]
    simp only [joinFrames_nil, List.nil_append] at ih ⊢
    simp [ih]
  | case5 a b rest h f fs l heq ih =>
    rw [heq] at ih
    rw [processBuffer_cons_of_ne h, heq]
    rw [joinFrames_cons] at ih
    simp only [joinFrames_cons]
    simp only [List.append_assoc] at ih ⊢
    simp [ih]

/-- If the extractor finds no frame, the buffer is returned unchanged. -/
theorem processBuffer_no_frames {s l : List Char}
    (h : processBuffer s = ([], l)) : l = s := by
  have := processBuffer_reconstruct s
  rw [h] at this
  simpa [joinFrames_nil] using this

/-- The first frame found always starts with the first character of the
buffer. -/
theorem processBuffer_first_char {s f : List Char} {fs : List (List Char)}
    {l : List Char} (h : processBuffer s = (f :: fs, l)) :
    ∀ c, f.head? = some c → s.head? = some c := by
  intro c hc
  have := processBuffer_reconstruct s
  rw [h, joinFrames_cons] at this
  cases f with
  | nil => simp at hc
  | cons x xs =>
    simp only [List.head?] at hc
    cases hc
    rw [← this]
    simp

/-- The leftover buffer never contains the delimiter. -/
theorem processBuffer_leftover_no_delim (s : List Char) :
    hasDelim (processBuffer s).2 = false := by
  induction s using processBuffer.induct with
  | case1 => simp [processBuffer, hasDelim]
  | case2 c => simp [processBuffer, hasDelim]
  | case3 a b rest h ih =>
    obtain ⟨rfl, rfl⟩ := h
    rw [processBuffer_delim_cons]
    simpa using ih
  | case4 a b rest h l heq ih =>
    rw [heq] at ih
    rw [processBuffer_cons_of_ne h, heq]
    have hl : l = b :: rest := processBuffer_no_frames heq
    subst hl
    simpa [hasDelim, if_neg h] using ih
  | case5 a b rest h f fs l heq ih =>
    rw [heq] at ih
    rw [processBuffer_cons_of_ne h, heq]
    simpa using ih

/-- No returned frame body contains the delimiter (each frame stops at the
leftmost delimiter). -/
theorem processBuffer_frames_no_delim (s : List Char) :
    ∀ f ∈ (processBuffer s).1, hasDelim f = false := by
  induction s using processBuffer.induct with
  | case1 => simp [processBuffer]
  | case2 c => simp [processBuffer]
  | case3 a b rest h ih =>
    obtain ⟨rfl, rfl⟩ := h
    intro f hf
    rw [processBuffer_delim_cons] at hf
    simp only [List.mem_cons] at hf
    rcases hf with rfl | hf
    · simp [hasDelim]
    · exact ih f hf
  | case4 a b rest h l heq ih =>
    intro f hf
    rw [processBuffer_cons_of_ne h, heq] at hf
    simp at hf
  | case5 a b rest h g gs l heq ih =>
    rw [heq] at ih
    intro f hf
    rw [processBuffer_cons_of_ne h, heq] at hf
    simp only [List.mem_cons] at hf
    rcases hf with rfl | hf
    · have hg : hasDelim g = false := ih g (by simp)
      cases g with
      | nil => simp [hasDelim]
      | cons x xs =>
        have hx : b = x := by
          have h1 := processBuffer_first_char heq x (by simp)
          simpa using h1
        subst hx
        simpa [hasDelim, if_neg h] using hg
    · exact ih f (by simp [hf])

/-- A buffer without the delimiter yields no frames and is kept whole. -/
theorem processBuffer_of_no_delim {s : List Char} (h : hasDelim s = false) :
    processBuffer s = ([], s) := by
  induction s using processBuffer.induct with
  | case1 => rfl
  | case2 c => rfl
  | case3 a b rest hc ih =>
    exfalso
    rw [hasDelim, if_pos hc] at h
    simp at h
  | case4 a b rest hc l heq ih =>
    rw [hasDelim, if_neg hc] at h
    rw [processBuffer_cons_of_ne hc, heq]
    rw [ih h] at heq
    simp only [Prod.mk.injEq] at heq
    rw [heq.2]
  | case5 a b rest hc f fs l heq ih =>
    exfalso
    rw [hasDelim, if_neg hc] at h
    rw [ih h] at heq
    simp at heq

/-- Extraction composes across buffer concatenation: running the extractor on
`s1 ++ s2` finds the frames of `s1` followed by the frames obtained from the
leftover of `s1` glued to `s2`. -/
theorem processBuffer_append (s1 s2 : List Char) :
    processBuffer (s1 ++ s2) =
      ((processBuffer s1).1 ++ (processBuffer ((processBuffer s1).2 ++ s2)).1,
       (processBuffer ((processBuffer s1).2 ++ s2)).2) := by
  induction s1 using processBuffer.induct with
  | case1 => simp [processBuffer]
  | case2 c => simp [processBuffer]
  | case3 a b rest h ih =>
    obtain ⟨rfl, rfl⟩ := h
    simp only [List.cons_append]
    rw [processBuffer_delim_cons, processBuffer_delim_cons, ih]
    simp
  | case4 a b rest h l heq ih =>
    have hl : l = b :: rest := processBuffer_no_frames heq
    subst hl
    have hub : processBuffer (a :: b :: rest) = ([], a :: b :: rest) := by
      rw [processBuffer_cons_of_ne h, heq]
    rw [hub]
    simp
  | case5 a b rest h f fs l heq ih =>
    rw [heq] at ih
    simp only at ih
    have hub : processBuffer (a :: b :: rest) = ((a :: f) :: fs, l) := by
      rw [processBuffer_cons_of_ne h, heq]
    rw [hub]
    simp only [List.cons_append] at ih ⊢
    rw [processBuffer_cons_of_ne h, ih]

/-- Folding the accumulate-and-extract step over a list of read pieces,
starting from frames `fs` and a delimiter-free leftover `l`, is the same as
extracting from the leftover glued to all pieces at once. -/
theorem foldl_feed (pieces : List (List Char)) :
    ∀ (fs : List (List Char)) (l : List Char), hasDelim l = false →
      List.foldl feed (fs, l) pieces =
        (fs ++ (processBuffer (l ++ pieces.flatten)).1,
         (processBuffer (l ++ pieces.flatten)).2) := by
  induction pieces with
  | nil =>
    intro fs l hl
    rw [List.foldl_nil, List.flatten_nil, List.append_nil,
      processBuffer_of_no_delim hl]
    simp
  | cons p ps ih =>
    intro fs l hl
    rw [List.foldl_cons]
    show List.foldl feed
      (fs ++ (processBuffer (l ++ p)).1, (processBuffer (l ++ p)).2) ps = _
    rw [ih _ _ (processBuffer_leftover_no_delim (l ++ p))]
    rw [List.flatten_cons, ← List.append_assoc]
    rw [processBuffer_append (l ++ p) ps.flatten]
    simp [List.append_assoc]

/-- C6: for every input buffer, `processBuffer` returns the ordered list of
complete frame bodies and the leftover unterminated suffix: the leftover
contains no `"\n\n"`, no frame body contains `"\n\n"` (the bodies are the
delimiter-terminated segments in order of appearance), concatenating each
frame followed by `"\n\n"` and then the leftover reconstructs the input
exactly, and the empty input yields zero frames and an empty leftover. -/
theorem claim_C6_processBuffer_correct (s : List Char) :
    joinFrames (processBuffer s).1 ++ (processBuffer s).2 = s ∧
    hasDelim (processBuffer s).2 = false ∧
    (∀ f ∈ (processBuffer s).1, hasDelim f = false) ∧
    processBuffer ([] : List Char) = ([], []) :=
  ⟨processBuffer_reconstruct s, processBuffer_leftover_no_delim s,
   processBuffer_frames_no_delim s, rfl⟩

/-- C5: feeding a text to the accumulate-and-extract step piece by piece —
for every way of splitting the text, including splits inside the delimiter —
produces exactly the frames and the final leftover of extracting from the
unsplit text; moreover a single complete frame (a delimiter-free body that
does not end in a half delimiter) followed by `"\n\n"` extracts to exactly
that one frame, so a frame split across reads yields exactly one decoded
event. -/
theorem claim_C5_split_invariance (pieces : List (List Char)) :
    List.foldl feed ([], []) pieces = processBuffer pieces.flatten ∧
    (∀ f : List Char, hasDelim f = false → f.getLast? ≠ some '\n' →
      processBuffer (f ++ delim) = ([f], [])) := by
  constructor
  · rw [foldl_feed pieces [] [] rfl]
    simp
  · intro f
    induction f with
    | nil => intro _ _; rfl
    | cons a f' ih =>
      intro hnd hlast
      cases f' with
      | nil =>
        have ha : ¬ a = '\n' := by
          simpa [List.getLast?] using hlast
        simp only [List.cons_append, List.nil_append, delim]
        rw [processBuffer_cons_of_ne
          (show ¬(a = '\n' ∧ ('\n' : Char) = '\n') from fun hc => ha hc.1) _]
        rw [processBuffer_delim_cons]
        simp [processBuffer]
      | cons b f'' =>
        have hcond : ¬ (a = '\n' ∧ b = '\n') := by
          intro hc
          rw [hasDelim, if_pos hc] at hnd
          simp at hnd
        have hnd' : hasDelim (b :: f'') = false := by
          rw [hasDelim, if_neg hcond] at hnd
          exact hnd
        have hlast' : (b :: f'').getLast? ≠ some '\n' := by
          simpa [List.getLast?_cons_cons] using hlast
        have ihr := ih hnd' hlast'
        simp only [List.cons_append] at ihr ⊢
        rw [processBuffer_cons_of_ne hcond _, ihr]

/-- Witness for C5: the text `"ab\n\ncd"` split into the two reads
`"ab\n"` and `"\ncd"` (a split inside the delimiter), and the single frame
body `"ab"`. -/
theorem claim_C5_witness :
    (List.foldl feed ([], []) [['a', 'b', '\n'], ['\n', 'c', 'd']] =
      processBuffer ([['a', 'b', '\n'], ['\n', 'c', 'd']] :
        List (List Char)).flatten) ∧
    hasDelim ['a', 'b'] = false ∧
    (['a', 'b'] : List Char).getLast? ≠ some '\n' ∧
    processBuffer (['a', 'b'] ++ delim) = ([['a', 'b']], []) :=
  ⟨(claim_C5_split_invariance [['a', 'b', '\n'], ['\n', 'c', 'd']]).1,
   by decide, by decide,
   (claim_C5_split_invariance [['a', 'b', '\n'], ['\n', 'c', 'd']]).2
     ['a', 'b'] (by decide) (by decide)⟩

/-! ## Event data model

`StreamEventData` embeds the `StreamEventData` interface of src/types.ts:
the event-type tag together with the optional fields the engine reads
(`index`, `chunk`, `result`, `error`, `details`).  The opaque `result`
payload (`any` in the source) is modelled as a JavaScript object in the
shape the engine observes it: an association list of string fields, looked
up first-match (later bindings shadow earlier ones, matching object spread
semantics). -/

/-- The event-type tag union of src/types.ts. -/
inductive EventType
  | start
  | progress
  | search_progress
  | search_complete
  | tensor_chunk
  | tensor_complete
  | tensor_error
  | complete
  | error
  | fatal_error
  deriving DecidableEq, Repr

/-- A decoded stream event (src/types.ts `StreamEventData`).  A field worth
`none` models a JavaScript `undefined`. -/
structure StreamEventData where
  type : EventType
  index : Option Nat := none
  chunk : Option String := none
  result : Option (List (String × String)) := none
  error : Option String := none
  details : Option String := none
  deriving DecidableEq, Repr

/-- First-match lookup in an association-list model of a JavaScript object
or `Map`. -/
def mapGet {κ α : Type} [DecidableEq κ] : List (κ × α) → κ → Option α
  | [], _ => none
  | p :: rest, k => if p.1 = k then some p.2 else mapGet rest k

/-- `Map.set` / object-spread override: the new binding shadows older ones. -/
def mapSet {κ α : Type} [DecidableEq κ] (m : List (κ × α)) (k : κ) (v : α) :
    List (κ × α) :=
  (k, v) :: m

/-- `Map.delete`: remove every binding of the key. -/
def mapDelete {κ α : Type} [DecidableEq κ] : List (κ × α) → κ → List (κ × α)
  | [], _ => []
  | p :: rest, k =>
    if p.1 = k then mapDelete rest k else p :: mapDelete rest k

/-- `Set.add` on a list-modelled set: adding an existing element leaves the
set unchanged. -/
def setAdd (s : List Nat) (i : Nat) : List Nat :=
  if s.contains i then s else i :: s

/-- The JavaScript truthiness coalescing `a || b` for optional strings:
`undefined` and the empty string fall through. -/
def truthyOr (a : Option String) (dflt : String) : String :=
  match a with
  | some s => if s.isEmpty then dflt else s
  | none => dflt

/-- JavaScript truthiness of `data.chunk`: defined and non-empty. -/
def chunkTruthy : Option String → Bool
  | some s => !s.isEmpty
  | none => false

/-- The per-session mutable state of `TensorchatStreaming`
(src/TensorchatStreaming.ts lines 7-8): the per-job fragment buffers and the
set of completed job indices. -/
structure EngineState where
  tensorBuffers : List (Nat × List String)
  completedTensors : List Nat
  deriving DecidableEq, Repr

/-- Fresh session state: `streamProcess` clears both collections before the
read loop (lines 70-72). -/
def initState : EngineState := ⟨[], []⟩

/-- The enriched completion record passed to `onTensorComplete`
(src/TensorchatStreaming.ts lines 130-137): the original event spread
together with the buffered fragment list and the result payload overridden
with the joined content. -/
structure CompleteData where
  base : StreamEventData
  streamBuffers : List String
  result : List (String × String)
  deriving DecidableEq, Repr

/-- One observable callback invocation of the engine. -/
inductive CallOut
  | searchProgress (d : StreamEventData)
  | searchComplete (d : StreamEventData)
  | tensorChunk (d : StreamEventData)
  | tensorComplete (d : CompleteData)
  | complete (d : StreamEventData)
  | onError (msg : String)
  deriving DecidableEq, Repr

/-- Control outcome of the `switch` on an event (src/TensorchatStreaming.ts
lines 90-161): continue the loop, return from `streamProcess` (the
`complete` case), or throw an `Error` (the `error` / `fatal_error` case). -/
inductive Ctl
  | next
  | stop
  | raise (msg : String)
  deriving DecidableEq, Repr

/-- Result of handling one decoded event. -/
structure EvOut where
  st : EngineState
  outs : List CallOut
  ctl : Ctl
  deriving DecidableEq, Repr

/-- `{...data.result, content: c}` (line 133-136): the result payload spread
with the `content` field overridden. -/
def enrichResult (r : Option (List (String × String))) (c : String) :
    List (String × String) :=
  mapSet (r.getD []) "content" c

/-- Embeds the `switch (data.type)` of `TensorchatStreaming.streamProcess`
(src/TensorchatStreaming.ts lines 90-161).  `start`, `progress` and
`tensor_error` have no case in this variant of the class and fall through
with no effect. -/
def handleEvent (st : EngineState) (d : StreamEventData) : EvOut :=
  match d.type with
  | .search_progress => ⟨st, [.searchProgress d], .next⟩
  | .search_complete => ⟨st, [.searchComplete d], .next⟩
  | .tensor_chunk =>
    match d.index with
    | none => ⟨st, [], .next⟩
    | some i =>
      if chunkTruthy d.chunk && !(st.completedTensors.contains i) then
        let buffers :=
          mapSet st.tensorBuffers i
            ((mapGet st.tensorBuffers i).getD [] ++ [d.chunk.getD ""])
        ⟨⟨buffers, st.completedTensors⟩, [.tensorChunk d], .next⟩
      else ⟨st, [], .next⟩
  | .tensor_complete =>
    match d.index with
    | none => ⟨st, [], .next⟩
    | some i =>
      ⟨⟨mapDelete st.tensorBuffers i, setAdd st.completedTensors i⟩,
       [.tensorComplete
         ⟨d, (mapGet st.tensorBuffers i).getD [],
          enrichResult d.result
            (String.join ((mapGet st.tensorBuffers i).getD []))⟩],
       .next⟩
  | .complete => ⟨st, [.complete d], .stop⟩
  | .error => ⟨st, [], .raise (truthyOr d.error (truthyOr d.details "Streaming error"))⟩
  | .fatal_error => ⟨st, [], .raise (truthyOr d.error (truthyOr d.details "Streaming error"))⟩
  | .start => ⟨st, [], .next⟩
  | .progress => ⟨st, [], .next⟩
  | .tensor_error => ⟨st, [], .next⟩

/-! ## Stream driver -/

/-- One extracted frame line as seen by the dispatch loop
(src/TensorchatStreaming.ts lines 85-88).  `dataLine p` models a line
beginning with the `"data: "` marker whose `JSON.parse` outcome on the rest
of the line is `p` (`none` models a parse failure — JSON decoding is an
external collaborator of the engine); `other` models a line without the
marker, which the loop skips. -/
inductive LineItem
  | dataLine (payload : Option StreamEventData)
  | other
  deriving DecidableEq, Repr

/-- Result of processing a batch of lines: the new engine state, the
callback invocations in order, and whether `streamProcess` returned. -/
structure RunOut where
  st : EngineState
  outs : List CallOut
  stopped : Bool
  deriving DecidableEq, Repr

/-- Embeds the body of `for (const line of lines)`
(src/TensorchatStreaming.ts lines 85-167).  The `try { JSON.parse ... switch
... } catch (parseError)` block surrounds both the parse and the switch, so
a parse failure is skipped with a diagnostic — and the `Error` thrown by the
`error` / `fatal_error` case is caught by that same `catch (parseError)`
and swallowed, after which the loop continues; only the `return` of the
`complete` case leaves the loop. -/
def processLine (st : EngineState) : LineItem → RunOut
  | .other => ⟨st, [], false⟩
  | .dataLine none => ⟨st, [], false⟩
  | .dataLine (some d) =>
    let r := handleEvent st d
    match r.ctl with
    | .next => ⟨r.st, r.outs, false⟩
    | .stop => ⟨r.st, r.outs, true⟩
    | .raise _ => ⟨r.st, r.outs, false⟩

/-- Process the lines extracted from one read, stopping when a line returns
from `streamProcess`. -/
def runLines : EngineState → List LineItem → RunOut
  | st, [] => ⟨st, [], false⟩
  | st, l :: rest =>
    let s := processLine st l
    if s.stopped then ⟨s.st, s.outs, true⟩
    else
      let r := runLines s.st rest
      ⟨r.st, s.outs ++ r.outs, r.stopped⟩

/-- Result of the read loop: state, callback trace, and how many reads were
pulled from the underlying stream reader. -/
structure ReadOut where
  st : EngineState
  outs : List CallOut
  readsConsumed : Nat
  deriving DecidableEq, Repr

/-- Embeds the `while (true) { await reader.read() ... }` loop
(src/TensorchatStreaming.ts lines 75-169): each element of `reads` is the
batch of complete lines the frame extractor produced from one read; a
`return` inside the line loop leaves the whole function, so later reads are
never pulled. -/
def runReads : EngineState → List (List LineItem) → ReadOut
  | st, [] => ⟨st, [], 0⟩
  | st, r :: rest =>
    let s := runLines st r
    if s.stopped then ⟨s.st, s.outs, 1⟩
    else
      let t := runReads s.st rest
      ⟨t.st, s.outs ++ t.outs, t.readsConsumed + 1⟩

/-- Outcome of the transport layer, an external collaborator: an OK response
whose body yields the given reads, a non-2xx HTTP response, or a response
without a readable body (src/TensorchatStreaming.ts lines 48-65). -/
inductive Transport
  | ok (reads : List (List LineItem))
  | httpError (status : Nat) (statusText : String)
  | noBody
  deriving DecidableEq, Repr

/-- Embeds `TensorchatStreaming.streamProcess` (src/TensorchatStreaming.ts
lines 41-177) at the session level: transport failures are thrown and land
in the outer `catch (error)`, which reports them through `onError`; on an OK
response the session state is reset and the read loop runs.  No exception
raised inside the line loop ever reaches the outer catch (the inner
`catch (parseError)` swallows both parse failures and the `error` /
`fatal_error` throw), so `onError` is never invoked from event handling. -/
def streamProcess : Transport → List CallOut
  | .httpError status statusText =>
    [.onError ("HTTP " ++ toString status ++ ": " ++ statusText)]
  | .noBody => [.onError "Response body is not readable"]
  | .ok reads => (runReads initState reads).outs

/-! ## Helper predicates and sample events -/

/-- Whether a callback invocation is a chunk callback for job index `i`. -/
def CallOut.isChunkFor (i : Nat) : CallOut → Bool
  | .tensorChunk d => d.index = some i
  | _ => false

/-- Whether a callback invocation is the per-job completion callback for job
index `i`. -/
def CallOut.isCompleteFor (i : Nat) : CallOut → Bool
  | .tensorComplete c => c.base.index = some i
  | _ => false

/-- Whether a callback invocation is the session error callback. -/
def CallOut.isOnError : CallOut → Bool
  | .onError _ => true
  | _ => false

/-- A `search_progress` event for job 0. -/
def spEvt : StreamEventData := { type := .search_progress, index := some 0 }

/-- A `search_complete` event for job 0. -/
def scEvt : StreamEventData := { type := .search_complete, index := some 0 }

/-- A protocol-level `error` event. -/
def errEvt : StreamEventData := { type := .error, error := some "boom" }

/-- A protocol-level `fatal_error` event carrying only `details`. -/
def fatalEvt : StreamEventData := { type := .fatal_error, details := some "bad" }

/-- The stream-level terminal `complete` event. -/
def cmpEvt : StreamEventData := { type := .complete }

/-- A `tensor_complete` event for job `i`. -/
def tcEvt (i : Nat) : StreamEventData := { type := .tensor_complete, index := some i }

/-- A `tensor_chunk` event for job `i` carrying fragment `c`. -/
def chEvt (i : Nat) (c : String) : StreamEventData :=
  { type := .tensor_chunk, index := some i, chunk := some c }

/-! ## Driver lemmas -/

/-- Composing line batches: when the first batch does not return, processing
the concatenation continues into the second batch with the reached state. -/
theorem runLines_append (ls1 : List LineItem) :
    ∀ (st : EngineState) (ls2 : List LineItem),
      (runLines st ls1).stopped = false →
      runLines st (ls1 ++ ls2) =
        ⟨(runLines (runLines st ls1).st ls2).st,
         (runLines st ls1).outs ++ (runLines (runLines st ls1).st ls2).outs,
         (runLines (runLines st ls1).st ls2).stopped⟩ := by
  induction ls1 with
  | nil => intro st ls2 _; simp [runLines]
  | cons l rest ih =>
    intro st ls2 h
    by_cases hs : (processLine st l).stopped
    · rw [runLines] at h
      simp only [hs, if_true] at h
      exact absurd h (by decide)
    · rw [runLines] at h
      simp only [hs, if_false, Bool.false_eq_true] at h
      rw [List.cons_append, runLines]
      simp only [hs, if_false, Bool.false_eq_true]
      rw [ih _ _ h, runLines]
      simp only [hs, if_false, Bool.false_eq_true]
      simp [List.append_assoc]

/-- No step of the line loop ever invokes the caller's `onError` callback:
parse failures are swallowed, and so is the `Error` thrown for `error` /
`fatal_error` events (it lands in the inner `catch (parseError)`). -/
theorem processLine_no_onError (st : EngineState) (l : LineItem) :
    (processLine st l).outs.filter CallOut.isOnError = [] := by
  cases l with
  | other => rfl
  | dataLine p =>
    cases p with
    | none => rfl
    | some d =>
      cases htype : d.type
      case tensor_chunk =>
        cases hidx : d.index with
        | none => simp [processLine, handleEvent, htype, hidx]
        | some i =>
          simp only [processLine, handleEvent, htype, hidx]
          by_cases hc : (chunkTruthy d.chunk && !(st.completedTensors.contains i)) = true
          · rw [if_pos hc]; rfl
          · rw [if_neg hc]; rfl
      case tensor_complete =>
        cases hidx : d.index <;>
          simp [processLine, handleEvent, htype, hidx, CallOut.isOnError]
      all_goals simp [processLine, handleEvent, htype, CallOut.isOnError]

/-- Processing any `complete` event line invokes the completion callback
with the event's data, leaves the state untouched and returns from
`streamProcess`. -/
theorem processLine_complete {d : StreamEventData} (st : EngineState)
    (h : d.type = EventType.complete) :
    processLine st (.dataLine (some d)) = ⟨st, [.complete d], true⟩ := by
  simp [processLine, handleEvent, h]

/-! ## Claims -/

/-- C1 (code bug): the claim says a decoded `error` / `fatal_error` event is
reported exactly once through `onError` and ends dispatch, but the `throw`
of src/TensorchatStreaming.ts line 160 sits inside the
`try { JSON.parse ... switch ... } catch (parseError)` of lines 87-166, so
the thrown `Error` is swallowed by the parse-failure handler: on a stream
carrying an `error` frame followed by a `search_progress` frame the session
invokes no `onError` at all and still dispatches the later frame's event,
and the same holds for `fatal_error`. -/
theorem claim_C1_error_event_swallowed :
    streamProcess (.ok [[.dataLine (some errEvt), .dataLine (some spEvt)]]) =
      [.searchProgress spEvt] ∧
    streamProcess (.ok [[.dataLine (some fatalEvt), .dataLine (some spEvt)]]) =
      [.searchProgress spEvt] := ⟨rfl, rfl⟩

/-- C4: once a `complete` event is decoded, `onComplete` is invoked with
that event's data and `streamProcess` returns at once: the remaining lines
of the same batch are not dispatched and no further read is pulled from the
stream (exactly one read is consumed). -/
theorem claim_C4_complete_truncates (st : EngineState) (d : StreamEventData)
    (pre post : List LineItem) (reads : List (List LineItem))
    (h1 : d.type = EventType.complete)
    (h2 : (runLines st pre).stopped = false) :
    runReads st ((pre ++ .dataLine (some d) :: post) :: reads) =
      ⟨(runLines st pre).st, (runLines st pre).outs ++ [.complete d], 1⟩ := by
  have hrl : runLines (runLines st pre).st (.dataLine (some d) :: post) =
      ⟨(runLines st pre).st, [.complete d], true⟩ := by
    rw [runLines, processLine_complete _ h1]
    simp
  have hall := runLines_append pre st (.dataLine (some d) :: post) h2
  rw [hrl] at hall
  rw [runReads, hall]
  simp

/-- Witness for C4: a `search_progress` frame, then `complete`, then another
`search_progress` frame in the same batch, followed by a second read. -/
theorem claim_C4_witness :
    cmpEvt.type = EventType.complete ∧
    (runLines initState [.dataLine (some spEvt)]).stopped = false ∧
    runReads initState
        (([.dataLine (some spEvt)] ++
          LineItem.dataLine (some cmpEvt) :: [.dataLine (some spEvt)]) ::
          [[.dataLine (some scEvt)]]) =
      ⟨(runLines initState [.dataLine (some spEvt)]).st,
       (runLines initState [.dataLine (some spEvt)]).outs ++ [.complete cmpEvt],
       1⟩ :=
  ⟨rfl, rfl,
   claim_C4_complete_truncates initState cmpEvt [.dataLine (some spEvt)]
     [.dataLine (some spEvt)] [[.dataLine (some scEvt)]] rfl rfl⟩

/-- C7: a `tensor_chunk` event for an index already marked completed leaves
the engine state literally unchanged (no fragment is buffered, the completed
set is untouched), invokes no callback, and neither throws nor stops: the
stray event is silently dropped on arrival
(src/TensorchatStreaming.ts line 107). -/
theorem claim_C7_stray_chunk_dropped (st : EngineState) (d : StreamEventData)
    (i : Nat) (h1 : st.completedTensors.contains i = true)
    (h2 : d.type = EventType.tensor_chunk) (h3 : d.index = some i) :
    processLine st (.dataLine (some d)) = ⟨st, [], false⟩ := by
  have h1m : i ∈ st.completedTensors := by simpa using h1
  simp only [processLine, handleEvent, h2, h3]
  rw [if_neg]
  simp [h1m]

/-- Witness for C7: job 0 already completed, a further chunk for it is
dropped. -/
theorem claim_C7_witness :
    (EngineState.mk [] [0]).completedTensors.contains 0 = true ∧
    (chEvt 0 "xy").type = EventType.tensor_chunk ∧
    (chEvt 0 "xy").index = some 0 ∧
    processLine ⟨[], [0]⟩ (.dataLine (some (chEvt 0 "xy"))) = ⟨⟨[], [0]⟩, [], false⟩ :=
  ⟨rfl, rfl, rfl,
   claim_C7_stray_chunk_dropped ⟨[], [0]⟩ (chEvt 0 "xy") 0 rfl rfl rfl⟩

/-- C10: a `tensor_chunk` event whose `chunk` field is absent or empty is
silently dropped — state unchanged, no chunk callback, no error — even when
its index is defined and not completed, because JavaScript `""` and
`undefined` are both falsy in the guard of
src/TensorchatStreaming.ts line 107; in particular the empty fragment never
reaches any completion record's fragment list. -/
theorem claim_C10_empty_chunk_dropped (st : EngineState) (d : StreamEventData)
    (h1 : d.type = EventType.tensor_chunk)
    (h2 : d.chunk = none ∨ d.chunk = some "") :
    processLine st (.dataLine (some d)) = ⟨st, [], false⟩ := by
  have hct : chunkTruthy d.chunk = false := by
    rcases h2 with h2 | h2 <;> simp [chunkTruthy, h2, String.isEmpty]
  cases hidx : d.index with
  | none => simp [processLine, handleEvent, h1, hidx]
  | some i =>
    simp only [processLine, handleEvent, h1, hidx]
    rw [if_neg]
    simp [hct]

/-- Witness for C10: an empty-string chunk and an absent chunk for a fresh,
uncompleted job index are both dropped. -/
theorem claim_C10_witness :
    ({ type := .tensor_chunk, index := some 0, chunk := some "" } :
      StreamEventData).type = EventType.tensor_chunk ∧
    processLine initState
        (.dataLine (some { type := .tensor_chunk, index := some 0, chunk := some "" })) =
      ⟨initState, [], false⟩ ∧
    processLine initState
        (.dataLine (some { type := .tensor_chunk, index := some 0 })) =
      ⟨initState, [], false⟩ :=
  ⟨rfl,
   claim_C10_empty_chunk_dropped initState _ rfl (Or.inr rfl),
   claim_C10_empty_chunk_dropped initState _ rfl (Or.inl rfl)⟩

/-- C8: a data-prefixed frame whose payload fails to parse is transparent to
the session — processing any line batch containing it is literally equal to
processing the batch without it (so valid frames on both sides are still
decoded and dispatched) — and no line batch whatsoever can make the engine
invoke `onError` (the corruption is never surfaced; compare
src/TensorchatStreaming.ts lines 162-166). -/
theorem claim_C8_malformed_frame_transparent (st : EngineState)
    (pre post : List LineItem) :
    runLines st (pre ++ .dataLine none :: post) = runLines st (pre ++ post) ∧
    ∀ ls : List LineItem, (runLines st ls).outs.filter CallOut.isOnError = [] := by
  constructor
  · induction pre generalizing st with
    | nil =>
      simp only [List.nil_append]
      rw [runLines]
      simp [processLine]
    | cons l rest ih =>
      simp only [List.cons_append]
      rw [runLines, runLines]
      by_cases hs : (processLine st l).stopped
      · simp [hs]
      · simp only [hs, if_false, Bool.false_eq_true]
        rw [ih]
  · intro ls
    induction ls generalizing st with
    | nil => rfl
    | cons l rest ih =>
      rw [runLines]
      by_cases hs : (processLine st l).stopped
      · simp only [hs, if_true]
        exact processLine_no_onError st l
      · simp only [hs, if_false, Bool.false_eq_true]
        rw [List.filter_append, processLine_no_onError st l, ih]
        rfl

/-! ## Per-job accumulation -/

theorem mapGet_set_self {κ α : Type} [DecidableEq κ] (m : List (κ × α))
    (k : κ) (v : α) : mapGet (mapSet m k v) k = some v := by
  simp [mapGet, mapSet]

/-- Processing a non-empty chunk line for an uncompleted index appends the
fragment to that index's buffer and invokes the chunk callback. -/
theorem processLine_chunk (st : EngineState) (i : Nat) (c : String)
    (hnc : st.completedTensors.contains i = false) (hce : c.isEmpty = false) :
    processLine st (.dataLine (some (chEvt i c))) =
      ⟨⟨mapSet st.tensorBuffers i ((mapGet st.tensorBuffers i).getD [] ++ [c]),
        st.completedTensors⟩,
       [.tensorChunk (chEvt i c)], false⟩ := by
  have hcond : (chunkTruthy (some c) && !st.completedTensors.contains i) = true := by
    rw [show chunkTruthy (some c) = !c.isEmpty from rfl, hce, hnc]
    rfl
  simp only [processLine, handleEvent, chEvt]
  rw [if_pos hcond]
  rfl

/-- Processing a `tensor_complete` line for index `i` marks `i` completed,
releases its buffer, and invokes the completion callback with the buffered
fragments and their single-join concatenation. -/
theorem processLine_tensor_complete (st : EngineState) (d : StreamEventData)
    (i : Nat) (h1 : d.type = EventType.tensor_complete) (h2 : d.index = some i) :
    processLine st (.dataLine (some d)) =
      ⟨⟨mapDelete st.tensorBuffers i, setAdd st.completedTensors i⟩,
       [.tensorComplete
         ⟨d, (mapGet st.tensorBuffers i).getD [],
          enrichResult d.result
            (String.join ((mapGet st.tensorBuffers i).getD []))⟩],
       false⟩ := by
  simp [processLine, handleEvent, h1, h2]

/-- Chunk lines accumulate fragments in arrival order while the completed
set is untouched. -/
theorem runLines_chunks (cs : List String) :
    ∀ (st : EngineState) (i : Nat),
      st.completedTensors.contains i = false →
      (∀ c ∈ cs, c.isEmpty = false) →
      ∃ bufs,
        runLines st (cs.map (fun c => LineItem.dataLine (some (chEvt i c)))) =
          ⟨⟨bufs, st.completedTensors⟩,
           cs.map (fun c => CallOut.tensorChunk (chEvt i c)), false⟩ ∧
        (mapGet bufs i).getD [] = (mapGet st.tensorBuffers i).getD [] ++ cs := by
  induction cs with
  | nil =>
    intro st i hnc hne
    exact ⟨st.tensorBuffers, by simp [runLines], by simp⟩
  | cons c cs ih =>
    intro st i hnc hne
    have hce : c.isEmpty = false := hne c (by simp)
    have hpl := processLine_chunk st i c hnc hce
    obtain ⟨bufs, hrun, hget⟩ :=
      ih ⟨mapSet st.tensorBuffers i ((mapGet st.tensorBuffers i).getD [] ++ [c]),
          st.completedTensors⟩ i hnc (fun x hx => hne x (by simp [hx]))
    refine ⟨bufs, ?_, ?_⟩
    · rw [List.map_cons, runLines, hpl]
      simp only [hrun]
      rfl
    · rw [hget]
      simp [mapGet_set_self, List.append_assoc]

/-- C3: starting a fresh session, a job index `i` that receives the
non-empty fragments `cs` in stream order and then `tensor_complete` gets one
chunk callback per fragment followed by one completion callback whose
enriched record carries exactly `cs` as its fragment list and whose result
`content` field is the single-join concatenation `String.join cs`. -/
theorem claim_C3_join_correctness (cs : List String) (i : Nat)
    (res : Option (List (String × String)))
    (hne : ∀ c ∈ cs, c.isEmpty = false) :
    (runLines initState
        (cs.map (fun c => LineItem.dataLine (some (chEvt i c))) ++
         [.dataLine (some { type := .tensor_complete, index := some i,
                            result := res })])).outs =
      cs.map (fun c => CallOut.tensorChunk (chEvt i c)) ++
        [.tensorComplete
          ⟨{ type := .tensor_complete, index := some i, result := res },
           cs, enrichResult res (String.join cs)⟩] ∧
    mapGet (enrichResult res (String.join cs)) "content" =
      some (String.join cs) := by
  obtain ⟨bufs, hrun, hget⟩ := runLines_chunks cs initState i rfl hne
  have hstop : (runLines initState
      (cs.map (fun c => LineItem.dataLine (some (chEvt i c))))).stopped = false := by
    rw [hrun]
  have happ := runLines_append
    (cs.map (fun c => LineItem.dataLine (some (chEvt i c)))) initState
    [.dataLine (some { type := .tensor_complete, index := some i, result := res })]
    hstop
  have hbufs : (mapGet bufs i).getD [] = cs := by
    simpa [initState, mapGet] using hget
  have hcomp := processLine_tensor_complete
    ⟨bufs, initState.completedTensors⟩
    { type := .tensor_complete, index := some i, result := res } i rfl rfl
  constructor
  · rw [happ, hrun]
    simp only [runLines, hcomp]
    simp [hbufs]
  · exact mapGet_set_self _ _ _

/-- Witness for C3: fragments `["ab", "cd", "ef"]` produce fragment list
`["ab", "cd", "ef"]` and joined content `"abcdef"`. -/
theorem claim_C3_witness :
    (∀ c ∈ ["ab", "cd", "ef"], String.isEmpty c = false) ∧
    (runLines initState
        ((["ab", "cd", "ef"].map
          (fun c => LineItem.dataLine (some (chEvt 0 c)))) ++
         [.dataLine (some { type := .tensor_complete, index := some 0,
                            result := none })])).outs =
      (["ab", "cd", "ef"].map (fun c => CallOut.tensorChunk (chEvt 0 c))) ++
        [.tensorComplete
          ⟨{ type := .tensor_complete, index := some 0, result := none },
           ["ab", "cd", "ef"],
           enrichResult none (String.join ["ab", "cd", "ef"])⟩] ∧
    String.join ["ab", "cd", "ef"] = "abcdef" :=
  ⟨by decide,
   (claim_C3_join_correctness ["ab", "cd", "ef"] 0 none (by decide)).1,
   rfl⟩

/-! ## Exactly-once completion invariants -/

/-- No chunk callback for job `i` occurs in the trace. -/
def chunkFreeFor (i : Nat) (outs : List CallOut) : Bool :=
  outs.all (fun o => !(o.isChunkFor i))

/-- After every completion callback for job `i`, the rest of the trace
contains no chunk callback for `i`. -/
def noChunkAfterComplete (i : Nat) : List CallOut → Bool
  | [] => true
  | o :: rest =>
    (if o.isCompleteFor i then chunkFreeFor i rest else true) &&
      noChunkAfterComplete i rest

/-- Number of completion callbacks for job `i` in the trace. -/
def countCompleteFor (i : Nat) (outs : List CallOut) : Nat :=
  (outs.filter (fun o => o.isCompleteFor i)).length

/-- Whether a line is a decoded `tensor_complete` event for job `i`. -/
def LineItem.isTCFor (i : Nat) : LineItem → Bool
  | .dataLine (some d) =>
    decide (d.type = EventType.tensor_complete ∧ d.index = some i)
  | _ => false

/-- Number of decoded `tensor_complete` lines for job `i`. -/
def countTCFor (i : Nat) (ls : List LineItem) : Nat :=
  (ls.filter (LineItem.isTCFor i)).length

/-- Whether a line is a decoded stream-terminal `complete` event. -/
def LineItem.isCompleteLine : LineItem → Bool
  | .dataLine (some d) => decide (d.type = EventType.complete)
  | _ => false

/-- A batch with no stream-terminal `complete` line. -/
def stopFree (ls : List LineItem) : Bool :=
  ls.all (fun l => ! l.isCompleteLine)

theorem chunkFreeFor_append (i : Nat) (a b : List CallOut) :
    chunkFreeFor i (a ++ b) = (chunkFreeFor i a && chunkFreeFor i b) := by
  simp [chunkFreeFor]

/-- Membership in the completed set is monotone along the line loop. -/
theorem processLine_mono (st : EngineState) (l : LineItem) (i : Nat)
    (h : st.completedTensors.contains i = true) :
    (processLine st l).st.completedTensors.contains i = true := by
  cases l with
  | other => exact h
  | dataLine p =>
    cases p with
    | none => exact h
    | some d =>
      cases htype : d.type
      case tensor_chunk =>
        cases hidx : d.index with
        | none => simpa [processLine, handleEvent, htype, hidx] using h
        | some j =>
          simp only [processLine, handleEvent, htype, hidx]
          by_cases hc : (chunkTruthy d.chunk && !(st.completedTensors.contains j)) = true
          · rw [if_pos hc]; exact h
          · rw [if_neg hc]; exact h
      case tensor_complete =>
        cases hidx : d.index with
        | none => simpa [processLine, handleEvent, htype, hidx] using h
        | some j =>
          simp only [processLine, handleEvent, htype, hidx]
          show (setAdd st.completedTensors j).contains i = true
          have hmem : i ∈ st.completedTensors := by simpa using h
          by_cases hj : j ∈ st.completedTensors <;> simp [setAdd, hj, hmem]
      all_goals simpa [processLine, handleEvent, htype] using h

/-- A step taken while `i` is completed emits no chunk callback for `i`. -/
theorem processLine_chunkfree (st : EngineState) (l : LineItem) (i : Nat)
    (h : st.completedTensors.contains i = true) :
    chunkFreeFor i (processLine st l).outs = true := by
  cases l with
  | other => rfl
  | dataLine p =>
    cases p with
    | none => rfl
    | some d =>
      cases htype : d.type
      case tensor_chunk =>
        cases hidx : d.index with
        | none => simp [processLine, handleEvent, htype, hidx, chunkFreeFor]
        | some j =>
          simp only [processLine, handleEvent, htype, hidx]
          by_cases hc : (chunkTruthy d.chunk && !(st.completedTensors.contains j)) = true
          · have hj : st.completedTensors.contains j = false := by
              rcases Bool.and_eq_true_iff.mp hc with ⟨-, hr⟩
              simpa using hr
            have hij : ¬ (j = i) := fun hji => by rw [hji] at hj; rw [h] at hj; cases hj
            rw [if_pos hc]
            simp [chunkFreeFor, CallOut.isChunkFor, hidx, hij]
          · rw [if_neg hc]
            rfl
      case tensor_complete =>
        cases hidx : d.index with
        | none => simp [processLine, handleEvent, htype, hidx, chunkFreeFor]
        | some j =>
          simp [processLine, handleEvent, htype, hidx, chunkFreeFor,
            CallOut.isChunkFor]
      all_goals
        simp [processLine, handleEvent, htype, chunkFreeFor, CallOut.isChunkFor]

/-- A step whose trace contains a completion callback for `i` leaves `i`
marked completed. -/
theorem processLine_completeout (st : EngineState) (l : LineItem) (i : Nat)
    (o : CallOut) (ho : o ∈ (processLine st l).outs)
    (hco : o.isCompleteFor i = true) :
    (processLine st l).st.completedTensors.contains i = true := by
  cases l with
  | other => simp [processLine] at ho
  | dataLine p =>
    cases p with
    | none => simp [processLine] at ho
    | some d =>
      cases htype : d.type
      case tensor_chunk =>
        cases hidx : d.index with
        | none => simp [processLine, handleEvent, htype, hidx] at ho
        | some j =>
          simp only [processLine, handleEvent, htype, hidx] at ho ⊢
          by_cases hc : (chunkTruthy d.chunk && !(st.completedTensors.contains j)) = true
          · rw [if_pos hc] at ho ⊢
            simp at ho
            rw [ho] at hco
            simp [CallOut.isCompleteFor] at hco
          · rw [if_neg hc] at ho ⊢
            simp at ho
      case tensor_complete =>
        cases hidx : d.index with
        | none => simp [processLine, handleEvent, htype, hidx] at ho
        | some j =>
          simp only [processLine, handleEvent, htype, hidx] at ho ⊢
          simp at ho
          rw [ho] at hco
          simp [CallOut.isCompleteFor] at hco
          have hji : j = i := by
            rw [hidx] at hco
            exact Option.some.inj hco
          show (setAdd st.completedTensors j).contains i = true
          rw [hji]
          by_cases hj : i ∈ st.completedTensors <;> simp [setAdd, hj]
      case complete =>
        simp [processLine, handleEvent, htype] at ho
        rw [ho] at hco
        simp [CallOut.isCompleteFor] at hco
      all_goals simp [processLine, handleEvent, htype] at ho
      all_goals (rw [ho] at hco; simp [CallOut.isCompleteFor] at hco)

/-- Each decoded `tensor_complete` line for `i` produces exactly one
completion callback for `i`, and nothing else produces any. -/
theorem processLine_countComplete (st : EngineState) (l : LineItem) (i : Nat) :
    countCompleteFor i (processLine st l).outs =
      (if l.isTCFor i then 1 else 0) := by
  cases l with
  | other => rfl
  | dataLine p =>
    cases p with
    | none => rfl
    | some d =>
      cases htype : d.type
      case tensor_chunk =>
        cases hidx : d.index with
        | none =>
          simp [processLine, handleEvent, htype, hidx, countCompleteFor,
            LineItem.isTCFor]
        | some j =>
          simp only [processLine, handleEvent, htype, hidx]
          by_cases hc : (chunkTruthy d.chunk && !(st.completedTensors.contains j)) = true
          · rw [if_pos hc]
            simp [countCompleteFor, CallOut.isCompleteFor, LineItem.isTCFor, htype]
          · rw [if_neg hc]
            simp [countCompleteFor, LineItem.isTCFor, htype]
      case tensor_complete =>
        cases hidx : d.index with
        | none =>
          simp [processLine, handleEvent, htype, hidx, countCompleteFor,
            LineItem.isTCFor]
        | some j =>
          by_cases hij : j = i
          · subst hij
            simp [processLine, handleEvent, htype, hidx, countCompleteFor,
              CallOut.isCompleteFor, LineItem.isTCFor]
          · simp [processLine, handleEvent, htype, hidx, countCompleteFor,
              CallOut.isCompleteFor, LineItem.isTCFor, hij]
      all_goals
        simp [processLine, handleEvent, htype, countCompleteFor,
          CallOut.isCompleteFor, LineItem.isTCFor]

/-- Every step emits at most one callback. -/
theorem processLine_outs_small (st : EngineState) (l : LineItem) :
    (processLine st l).outs = [] ∨ ∃ o, (processLine st l).outs = [o] := by
  cases l with
  | other => exact Or.inl rfl
  | dataLine p =>
    cases p with
    | none => exact Or.inl rfl
    | some d =>
      cases htype : d.type
      case tensor_chunk =>
        cases hidx : d.index with
        | none => left; simp [processLine, handleEvent, htype, hidx]
        | some j =>
          simp only [processLine, handleEvent, htype, hidx]
          by_cases hc : (chunkTruthy d.chunk && !(st.completedTensors.contains j)) = true
          · rw [if_pos hc]; right; exact ⟨_, rfl⟩
          · rw [if_neg hc]; left; rfl
      case tensor_complete =>
        cases hidx : d.index with
        | none => left; simp [processLine, handleEvent, htype, hidx]
        | some j =>
          rw [processLine_tensor_complete st d j htype hidx]
          exact Or.inr ⟨_, rfl⟩
      all_goals simp only [processLine, handleEvent, htype]
      all_goals
        first
          | exact Or.inl rfl
          | (left; trivial)
          | exact Or.inr ⟨_, rfl⟩

/-- The line loop returns exactly on decoded stream-terminal `complete`
lines. -/
theorem processLine_stopped_eq (st : EngineState) (l : LineItem) :
    (processLine st l).stopped = l.isCompleteLine := by
  cases l with
  | other => rfl
  | dataLine p =>
    cases p with
    | none => rfl
    | some d =>
      cases htype : d.type
      case tensor_chunk =>
        cases hidx : d.index with
        | none => simp [processLine, handleEvent, htype, hidx, LineItem.isCompleteLine]
        | some j =>
          simp only [processLine, handleEvent, htype, hidx]
          by_cases hc : (chunkTruthy d.chunk && !(st.completedTensors.contains j)) = true
          · rw [if_pos hc]; simp [LineItem.isCompleteLine, htype]
          · rw [if_neg hc]; simp [LineItem.isCompleteLine, htype]
      case tensor_complete =>
        cases hidx : d.index with
        | none => simp [processLine, handleEvent, htype, hidx, LineItem.isCompleteLine]
        | some j => simp [processLine, handleEvent, htype, hidx, LineItem.isCompleteLine]
      all_goals simp [processLine, handleEvent, htype, LineItem.isCompleteLine]

theorem countCompleteFor_append (i : Nat) (a b : List CallOut) :
    countCompleteFor i (a ++ b) = countCompleteFor i a + countCompleteFor i b := by
  simp [countCompleteFor, List.filter_append]

theorem countTCFor_cons (i : Nat) (l : LineItem) (ls : List LineItem) :
    countTCFor i (l :: ls) =
      (if l.isTCFor i then 1 else 0) + countTCFor i ls := by
  simp only [countTCFor, List.filter_cons]
  split <;> simp [Nat.add_comm]

/-- Once `i` is completed, the whole remaining trace is free of chunk
callbacks for `i`. -/
theorem runLines_chunkfree (i : Nat) (ls : List LineItem) :
    ∀ st : EngineState, st.completedTensors.contains i = true →
      chunkFreeFor i (runLines st ls).outs = true := by
  induction ls with
  | nil => intro st _; rfl
  | cons l rest ih =>
    intro st h
    rw [runLines]
    by_cases hs : (processLine st l).stopped
    · simp only [hs, if_true]
      exact processLine_chunkfree st l i h
    · simp only [hs, if_false, Bool.false_eq_true]
      rw [chunkFreeFor_append]
      rw [processLine_chunkfree st l i h, ih _ (processLine_mono st l i h)]
      rfl

/-- In any trace of the line loop, no chunk callback for `i` ever follows a
completion callback for `i`. -/
theorem runLines_noChunkAfterComplete (i : Nat) (ls : List LineItem) :
    ∀ st : EngineState,
      noChunkAfterComplete i (runLines st ls).outs = true := by
  induction ls with
  | nil => intro st; rfl
  | cons l rest ih =>
    intro st
    rw [runLines]
    by_cases hs : (processLine st l).stopped
    · simp only [hs, if_true]
      rcases processLine_outs_small st l with ho | ⟨o, ho⟩ <;>
        simp [ho, noChunkAfterComplete, chunkFreeFor]
    · simp only [hs, if_false, Bool.false_eq_true]
      rcases processLine_outs_small st l with ho | ⟨o, ho⟩
      · simp only [ho, List.nil_append]
        exact ih _
      · simp only [ho, List.cons_append, List.nil_append]
        rw [noChunkAfterComplete]
        rw [ih _]
        by_cases hc : o.isCompleteFor i
        · have hmem : o ∈ (processLine st l).outs := by rw [ho]; simp
          have hdone := processLine_completeout st l i o hmem hc
          rw [if_pos hc, runLines_chunkfree i rest _ hdone]
          rfl
        · rw [if_neg hc]
          rfl

/-- The number of completion callbacks for `i` is bounded by the number of
decoded `tensor_complete` lines for `i`, with equality whenever no
stream-terminal `complete` line truncates the batch. -/
theorem runLines_countComplete (i : Nat) (ls : List LineItem) :
    ∀ st : EngineState,
      countCompleteFor i (runLines st ls).outs ≤ countTCFor i ls ∧
      (stopFree ls = true →
        countCompleteFor i (runLines st ls).outs = countTCFor i ls) := by
  induction ls with
  | nil => intro st; exact ⟨Nat.le_refl 0, fun _ => rfl⟩
  | cons l rest ih =>
    intro st
    rw [runLines, countTCFor_cons]
    by_cases hs : (processLine st l).stopped
    · simp only [hs, if_true]
      constructor
      · show countCompleteFor i (processLine st l).outs ≤ _
        rw [processLine_countComplete st l i]
        exact Nat.le_add_right_of_le (Nat.le_refl _)
      · intro hsf
        exfalso
        have h1 : l.isCompleteLine = true := by
          rw [← processLine_stopped_eq st l]; exact hs
        have h2 : (!l.isCompleteLine) = true := by
          have := List.all_eq_true.mp hsf l (by simp)
          simpa using this
        rw [h1] at h2
        cases h2
    · simp only [hs, if_false, Bool.false_eq_true]
      rw [countCompleteFor_append, processLine_countComplete st l i]
      obtain ⟨hle, heq⟩ := ih (processLine st l).st
      constructor
      · exact Nat.add_le_add (Nat.le_refl _) hle
      · intro hsf
        have hsf' : stopFree rest = true := by
          simp only [stopFree, List.all_cons, Bool.and_eq_true] at hsf
          exact hsf.2
        rw [heq hsf']

/-- The prefix of a line batch that the loop actually processes: everything
up to and including the first stream-terminal `complete` line, whose
`return` leaves `streamProcess` (src/TensorchatStreaming.ts line 156). -/
def upToStop : List LineItem → List LineItem
  | [] => []
  | l :: rest => if l.isCompleteLine then [l] else l :: upToStop rest

/-- The processed prefix never carries more `tensor_complete` lines for `i`
than the whole batch. -/
theorem countTCFor_upToStop_le (i : Nat) (ls : List LineItem) :
    countTCFor i (upToStop ls) ≤ countTCFor i ls := by
  induction ls with
  | nil => exact Nat.le_refl 0
  | cons l rest ih =>
    rw [upToStop]
    by_cases hl : l.isCompleteLine = true
    · rw [if_pos hl, countTCFor_cons i l [], countTCFor_cons i l rest]
      have h0 : countTCFor i [] = 0 := rfl
      rw [h0]
      omega
    · rw [if_neg hl, countTCFor_cons i l (upToStop rest),
        countTCFor_cons i l rest]
      omega

/-- Exactly-once accounting, unconditionally: the number of completion
callbacks for `i` equals the number of decoded `tensor_complete` lines for
`i` among the lines processed before the terminal `complete` (all lines when
no terminal `complete` occurs). -/
theorem runLines_countComplete_upToStop (i : Nat) (ls : List LineItem) :
    ∀ st : EngineState,
      countCompleteFor i (runLines st ls).outs = countTCFor i (upToStop ls) := by
  induction ls with
  | nil => intro st; rfl
  | cons l rest ih =>
    intro st
    rw [runLines, upToStop]
    by_cases hs : (processLine st l).stopped
    · have hl : l.isCompleteLine = true := by
        rw [← processLine_stopped_eq st l]; exact hs
      rw [if_pos hl]
      simp only [hs, if_true]
      show countCompleteFor i (processLine st l).outs = countTCFor i [l]
      rw [processLine_countComplete st l i, countTCFor_cons i l []]
      have h0 : countTCFor i [] = 0 := rfl
      rw [h0, Nat.add_zero]
    · have hl : l.isCompleteLine = false := by
        rw [Bool.not_eq_true] at hs
        rw [← processLine_stopped_eq st l]; exact hs
      have hcond : ¬ (l.isCompleteLine = true) := by rw [hl]; decide
      rw [if_neg hcond]
      simp only [hs, if_false, Bool.false_eq_true]
      show countCompleteFor i
          ((processLine st l).outs ++
            (runLines (processLine st l).st rest).outs) =
        countTCFor i (l :: upToStop rest)
      rw [countCompleteFor_append, processLine_countComplete st l i,
        countTCFor_cons i l (upToStop rest), ih (processLine st l).st]

/-- C2 counterexample: a stream whose only lines are two decoded
`tensor_complete` events for job 0 makes the completion callback fire twice
for index 0 — the `tensor_complete` case of src/TensorchatStreaming.ts
lines 123-148 has no already-completed guard, so a duplicate
`tensor_complete` is not suppressed, refuting "fires exactly once ... a
duplicate tensor_complete for i triggers no second completion callback". -/
theorem claim_C2_counterexample :
    countCompleteFor 0 (runLines initState
        [.dataLine (some (tcEvt 0)), .dataLine (some (tcEvt 0))]).outs = 2 ∧
    countCompleteFor 0 (runLines initState
        [.dataLine (some (tcEvt 0)), .dataLine (some (tcEvt 0))]).outs ≠ 1 :=
  ⟨rfl, by decide⟩

/-- C2 (amended): in every trace of the line loop, no chunk callback for a
job index ever follows a completion callback for that index (so every chunk
callback for `i` fires strictly before the first completion callback for
`i`, and a `tensor_chunk` arriving after `tensor_complete` triggers no chunk
callback); the completion callback fires exactly once per decoded
`tensor_complete` line for `i` among the lines the loop processes — the
batch up to and including the first stream-terminal `complete` line, or the
whole batch when none occurs.  In particular it fires exactly once when
exactly one `tensor_complete` for `i` precedes the terminal `complete`, but
a duplicate processed `tensor_complete` for `i` does fire the completion
callback a second time. -/
theorem claim_C2_amended (i : Nat) (st : EngineState) (ls : List LineItem) :
    noChunkAfterComplete i (runLines st ls).outs = true ∧
    countCompleteFor i (runLines st ls).outs = countTCFor i (upToStop ls) ∧
    countCompleteFor i (runLines st ls).outs ≤ countTCFor i ls :=
  ⟨runLines_noChunkAfterComplete i ls st,
   runLines_countComplete_upToStop i ls st,
   (runLines_countComplete_upToStop i ls st).trans_le
     (countTCFor_upToStop_le i ls)⟩

/-- Witness for C2: chunk for 0, its completion, a stray chunk for 0, the
stream-terminal `complete`, and a duplicate `tensor_complete` line after it
that is never processed: the single processed `tensor_complete` yields
exactly one completion callback. -/
theorem claim_C2_witness :
    noChunkAfterComplete 0 (runLines initState
        [.dataLine (some (chEvt 0 "ab")), .dataLine (some (tcEvt 0)),
         .dataLine (some (chEvt 0 "cd")), .dataLine (some cmpEvt),
         .dataLine (some (tcEvt 0))]).outs = true ∧
    countCompleteFor 0 (runLines initState
        [.dataLine (some (chEvt 0 "ab")), .dataLine (some (tcEvt 0)),
         .dataLine (some (chEvt 0 "cd")), .dataLine (some cmpEvt),
         .dataLine (some (tcEvt 0))]).outs =
      countTCFor 0 (upToStop
        [.dataLine (some (chEvt 0 "ab")), .dataLine (some (tcEvt 0)),
         .dataLine (some (chEvt 0 "cd")), .dataLine (some cmpEvt),
         .dataLine (some (tcEvt 0))]) ∧
    countTCFor 0 (upToStop
        [.dataLine (some (chEvt 0 "ab")), .dataLine (some (tcEvt 0)),
         .dataLine (some (chEvt 0 "cd")), .dataLine (some cmpEvt),
         .dataLine (some (tcEvt 0))]) = 1 :=
  ⟨(claim_C2_amended 0 initState _).1,
   (claim_C2_amended 0 initState _).2.1,
   rfl⟩

/-! ## Coalescing dispatcher (throttled variant)

The throttled variant of the class keeps `throttleTimers :
Map<string, number>` from throttle key to the id of the pending
`setTimeout`.  `ThrottleState` pairs that map with an explicit model of the
runtime's timer table: `live` lists the not-yet-fired, not-yet-cancelled
timers in creation order as (id, key, value), and `nextId` generates fresh
timer ids.  `clearTimeout` removes a timer from `live`; a timer that fires
runs its body and leaves `live`. -/

structure ThrottleState (V : Type) where
  throttleTimers : List (String × Nat)
  live : List (Nat × String × V)
  nextId : Nat
  deriving DecidableEq, Repr

/-- Embeds `TensorChatStreaming.throttle` (the throttled variant, lines
18-29): if a pending entry exists for `key`, `clearTimeout` it (its stale
value is discarded with it); then start a fresh timer carrying `v` and map
`key` to its id. -/
def throttle {V : Type} (st : ThrottleState V) (key : String) (v : V) :
    ThrottleState V :=
  let live1 :=
    match mapGet st.throttleTimers key with
    | some tid => st.live.filter (fun t => decide (t.1 ≠ tid))
    | none => st.live
  ⟨mapSet st.throttleTimers key st.nextId,
   live1 ++ [(st.nextId, key, v)], st.nextId + 1⟩

/-- A live timer expires: its body runs — `fn(...args)` with the value
captured at scheduling time, then `this.throttleTimers.delete(key)` — and
the runtime removes the timer.  Firing an id that is not live (already
cancelled) does nothing. -/
def fireTimer {V : Type} (st : ThrottleState V) (id : Nat) :
    ThrottleState V × List V :=
  match st.live.find? (fun t => decide (t.1 = id)) with
  | none => (st, [])
  | some t =>
    (⟨mapDelete st.throttleTimers t.2.1,
      st.live.filter (fun u => decide (u.1 ≠ t.1)), st.nextId⟩,
     [t.2.2])

/-- Fire the given timer ids in order, collecting the invocations. -/
def expireList {V : Type} : ThrottleState V → List Nat → ThrottleState V × List V
  | st, [] => (st, [])
  | st, id :: rest =>
    let s := fireTimer st id
    let r := expireList s.1 rest
    (r.1, s.2 ++ r.2)

/-- Let the coalescing window expire: every currently live timer fires in
creation order. -/
def expireAll {V : Type} (st : ThrottleState V) : ThrottleState V × List V :=
  expireList st (st.live.map (fun t => t.1))

/-- Well-formedness of the throttle state: every live timer is the one its
key currently maps to, carries an id below the fresh-id counter, and ids are
pairwise distinct. -/
def throttleWF {V : Type} (st : ThrottleState V) : Prop :=
  (∀ t ∈ st.live, mapGet st.throttleTimers t.2.1 = some t.1) ∧
  (∀ t ∈ st.live, t.1 < st.nextId) ∧
  (st.live.map (fun t => t.1)).Nodup

theorem mapGet_set_other {κ α : Type} [DecidableEq κ] (m : List (κ × α))
    (k k' : κ) (v : α) (h : k' ≠ k) :
    mapGet (mapSet m k v) k' = mapGet m k' := by
  simp [mapGet, mapSet, Ne.symm h]

theorem mapGet_delete_other {κ α : Type} [DecidableEq κ] (m : List (κ × α))
    (k k' : κ) (h : k' ≠ k) :
    mapGet (mapDelete m k) k' = mapGet m k' := by
  induction m with
  | nil => rfl
  | cons p rest ih =>
    by_cases hp : p.1 = k
    · rw [mapDelete, if_pos hp, ih, mapGet]
      rw [if_neg]
      rw [hp]
      exact fun hk => h hk.symm
    · rw [mapDelete, if_neg hp]
      rw [mapGet, mapGet]
      split <;> simp [ih]

/-- In a well-formed state there is at most one live timer per key. -/
theorem atMostOne_of_throttleWF {V : Type} (st : ThrottleState V)
    (h : throttleWF st) (k : String) :
    (st.live.filter (fun t => decide (t.2.1 = k))).length ≤ 1 := by
  obtain ⟨hcoup, hlt, hnd⟩ := h
  cases hl : st.live.filter (fun t => decide (t.2.1 = k)) with
  | nil => simp
  | cons t1 tl =>
    cases tl with
    | nil => simp
    | cons t2 tl2 =>
      exfalso
      have hsub : (st.live.filter (fun t => decide (t.2.1 = k))).Sublist st.live :=
        List.filter_sublist _
      have hndf : ((st.live.filter (fun t => decide (t.2.1 = k))).map
          (fun t => t.1)).Nodup :=
        List.Nodup.sublist (hsub.map _) hnd
      rw [hl] at hndf
      have ht1 : t1 ∈ st.live.filter (fun t => decide (t.2.1 = k)) := by
        rw [hl]; simp
      have ht2 : t2 ∈ st.live.filter (fun t => decide (t.2.1 = k)) := by
        rw [hl]; simp
      have hk1 : t1.2.1 = k := by
        have := List.of_mem_filter ht1
        simpa using this
      have hk2 : t2.2.1 = k := by
        have := List.of_mem_filter ht2
        simpa using this
      have e1 := hcoup t1 (List.mem_of_mem_filter ht1)
      have e2 := hcoup t2 (List.mem_of_mem_filter ht2)
      rw [hk1] at e1
      rw [hk2] at e2
      rw [e1] at e2
      have hid : t1.1 = t2.1 := Option.some.inj e2
      simp only [List.map_cons, List.nodup_cons, List.mem_cons] at hndf
      exact hndf.1 (Or.inl hid)

/-- Scheduling preserves well-formedness: the superseded timer (if any) is
cancelled before the fresh one is installed. -/
theorem throttle_preserves_wf {V : Type} (st : ThrottleState V) (key : String)
    (v : V) (h : throttleWF st) : throttleWF (throttle st key v) := by
  obtain ⟨hcoup, hlt, hnd⟩ := h
  have hlive1 : ∀ t ∈ (throttle st key v).live,
      (t ∈ st.live ∧ t.2.1 ≠ key ∧ t.1 < st.nextId) ∨ t = (st.nextId, key, v) := by
    intro t ht
    simp only [throttle] at ht
    rcases List.mem_append.mp ht with ht1 | ht1
    · left
      have hmem : t ∈ st.live ∧ t.2.1 ≠ key := by
        cases hget : mapGet st.throttleTimers key with
        | none =>
          rw [hget] at ht1
          refine ⟨ht1, fun hk => ?_⟩
          have := hcoup t ht1
          rw [hk, hget] at this
          cases this
        | some tid =>
          rw [hget] at ht1
          have hmf := List.mem_of_mem_filter ht1
          have hne : t.1 ≠ tid := by
            have := List.of_mem_filter ht1
            simpa using this
          refine ⟨hmf, fun hk => ?_⟩
          have := hcoup t hmf
          rw [hk, hget] at this
          exact hne (Option.some.inj this.symm)
      exact ⟨hmem.1, hmem.2, hlt t hmem.1⟩
    · right
      simpa using ht1
  refine ⟨?_, ?_, ?_⟩
  · intro t ht
    rcases hlive1 t ht with ⟨-, hkey, -⟩ | rfl
    · show mapGet (mapSet st.throttleTimers key st.nextId) t.2.1 = some t.1
      rw [mapGet_set_other _ _ _ _ hkey]
      rcases hlive1 t ht with ⟨hmem, -, -⟩ | heq
      · exact hcoup t hmem
      · rw [heq] at hkey; simp at hkey
    · exact mapGet_set_self _ _ _
  · intro t ht
    rcases hlive1 t ht with ⟨-, -, hlt'⟩ | rfl
    · show t.1 < st.nextId + 1
      exact Nat.lt_succ_of_lt hlt'
    · exact Nat.lt_succ_self _
  · show (((match mapGet st.throttleTimers key with
      | some tid => st.live.filter (fun t => decide (t.1 ≠ tid))
      | none => st.live) ++ [(st.nextId, key, v)]).map (fun t => t.1)).Nodup
    rw [List.map_append]
    apply List.Nodup.append
    · cases hget : mapGet st.throttleTimers key with
      | none => exact hnd
      | some tid =>
        exact List.Nodup.sublist ((List.filter_sublist _).map _) hnd
    · simp
    · intro a ha hb
      simp only [List.map_cons, List.map_nil, List.mem_singleton] at hb
      subst hb
      have hmem : ∃ t ∈ st.live, t.1 = st.nextId := by
        cases hget : mapGet st.throttleTimers key with
        | none =>
          rw [hget] at ha
          rcases List.mem_map.mp ha with ⟨t, ht, hta⟩
          exact ⟨t, ht, hta⟩
        | some tid =>
          rw [hget] at ha
          rcases List.mem_map.mp ha with ⟨t, ht, hta⟩
          exact ⟨t, List.mem_of_mem_filter ht, hta⟩
      rcases hmem with ⟨t, ht, hta⟩
      have := hlt t ht
      rw [hta] at this
      exact Nat.lt_irrefl _ this

/-- Firing a timer preserves well-formedness. -/
theorem fireTimer_preserves_wf {V : Type} (st : ThrottleState V) (id : Nat)
    (h : throttleWF st) : throttleWF (fireTimer st id).1 := by
  obtain ⟨hcoup, hlt, hnd⟩ := h
  cases hf : st.live.find? (fun t => decide (t.1 = id)) with
  | none => rw [fireTimer, hf]; exact ⟨hcoup, hlt, hnd⟩
  | some t =>
    have htl : t ∈ st.live := List.mem_of_find?_eq_some hf
    rw [fireTimer, hf]
    refine ⟨?_, ?_, ?_⟩
    · intro u hu
      simp only at hu
      have humem : u ∈ st.live := List.mem_of_mem_filter hu
      have hune : u.1 ≠ t.1 := by
        have := List.of_mem_filter hu
        simpa using this
      have hukey : u.2.1 ≠ t.2.1 := by
        intro hk
        have e1 := hcoup u humem
        have e2 := hcoup t htl
        rw [hk, e2] at e1
        exact hune (Option.some.inj e1).symm
      show mapGet (mapDelete st.throttleTimers t.2.1) u.2.1 = some u.1
      rw [mapGet_delete_other _ _ _ hukey]
      exact hcoup u humem
    · intro u hu
      exact hlt u (List.mem_of_mem_filter hu)
    · exact List.Nodup.sublist ((List.filter_sublist _).map _) hnd

/-- C9: in the throttled configuration, scheduling a chunk callback for a
key that already has a pending entry cancels the earlier timer and discards
its stale value — well-formedness is preserved by scheduling and firing, and
a well-formed state has at most one pending timer per key at any time — and
scheduling three callbacks for one key within one coalescing window and then
letting the window expire produces exactly one invocation, carrying the
third (most recently scheduled) value, after which the pending entry for the
key is cleared. -/
theorem claim_C9_throttle_coalesces {V : Type} (st : ThrottleState V)
    (key : String) (v : V) (h : throttleWF st) :
    throttleWF (throttle st key v) ∧
    (∀ k : String, ((throttle st key v).live.filter
        (fun t => decide (t.2.1 = k))).length ≤ 1) ∧
    (∀ id : Nat, throttleWF (fireTimer st id).1) ∧
    expireAll (throttle (throttle (throttle
        (⟨[], [], 0⟩ : ThrottleState String) "chunk-0" "v1") "chunk-0" "v2")
        "chunk-0" "v3") =
      (⟨[], [], 3⟩, ["v3"]) :=
  ⟨throttle_preserves_wf st key v h,
   atMostOne_of_throttleWF _ (throttle_preserves_wf st key v h),
   fun id => fireTimer_preserves_wf st id h,
   rfl⟩

/-- Witness for C9: the empty throttle state is well-formed and supports the
claim's scenario. -/
theorem claim_C9_witness :
    throttleWF (⟨[], [], 0⟩ : ThrottleState String) ∧
    (throttleWF (throttle (⟨[], [], 0⟩ : ThrottleState String) "chunk-0" "v1") ∧
     (∀ k : String, ((throttle (⟨[], [], 0⟩ : ThrottleState String)
        "chunk-0" "v1").live.filter
          (fun t => decide (t.2.1 = k))).length ≤ 1) ∧
     (∀ id : Nat, throttleWF
        (fireTimer (⟨[], [], 0⟩ : ThrottleState String) id).1) ∧
     expireAll (throttle (throttle (throttle
        (⟨[], [], 0⟩ : ThrottleState String) "chunk-0" "v1") "chunk-0" "v2")
        "chunk-0" "v3") =
      (⟨[], [], 3⟩, ["v3"])) :=
  ⟨⟨by simp, by simp, List.nodup_nil⟩,
   claim_C9_throttle_coalesces (⟨[], [], 0⟩ : ThrottleState String)
     "chunk-0" "v1" ⟨by simp, by simp, List.nodup_nil⟩⟩

/-- Witness for C6: the buffer `"a\n\nb"` extracts to the single frame
`"a"` with leftover `"b"`. -/
theorem claim_C6_witness :
    joinFrames (processBuffer ['a', '\n', '\n', 'b']).1 ++
        (processBuffer ['a', '\n', '\n', 'b']).2 = ['a', '\n', '\n', 'b'] ∧
    hasDelim (processBuffer ['a', '\n', '\n', 'b']).2 = false ∧
    (∀ f ∈ (processBuffer ['a', '\n', '\n', 'b']).1, hasDelim f = false) ∧
    processBuffer ([] : List Char) = ([], []) :=
  claim_C6_processBuffer_correct ['a', '\n', '\n', 'b']
